import Mathlib

/-!
Shallow embedding of `__main__.py` (a brute-force traveling-postman solver)
and proofs of the specification claims about it.

The embedding mirrors the Python source:
* `PyVal` / `InputValidator.postInit` model the dynamic type checks of
  `InputValidator.__post_init__` (a `try` of `assert`s catching only
  `AssertionError`, so an `IndexError` from `data[0]` escapes).
* `Point` and `Route.calcDistanceBetweenPoints` model the frozen dataclass
  and `_calc_distance_between_points`; the float expression `(dx**2 + dy**2) ** .5`
  is idealized as the real square root.
* Python dicts are modelled as functions to `Option`, assignment as pointwise
  override (`dictUpdate`), missing keys as `none`.
* `Route.swapL` / `Route.heapRun` / `Route.heapLoop` model the in-place
  swap `arr[i], arr[j] = arr[j], arr[i]` and the recursive `_permute`
  of `_create_all_combinations` (including the trailing swap of each loop
  iteration and the no-emission behaviour when `len_arr == 0`).
* `Route.innerCost` / `Route.selectLoop` / `Route.calculateMinimalRoute`
  model the selection loop of `_calculate_minimal_route`, with the float
  `math.inf` initial minimum modelled as `(⊤ : EReal)` and the
  `start_point` variable carried across candidate paths exactly as in the
  source.
* `Route.getPointByAddress` and `Route.displayLegs` model
  `_get_point_by_address` (which searches only `self._row_route`) and the
  numeric accumulation of the `display` property.
-/

/-! ## Python value universe and `InputValidator.__post_init__` -/

/-- A Python runtime value, as far as the validator can distinguish them.
`boolean` is separate because Python `bool` satisfies `isinstance(_, int)`. -/
inductive PyVal where
  | int (n : ℤ)
  | boolean (b : Bool)
  | str (s : String)
  | tuple (elems : List PyVal)
  | list (elems : List PyVal)
  | nonePy
deriving Repr

/-- Python `isinstance(v, int)`; `True`/`False` are `int`s in Python. -/
def PyVal.isInt : PyVal → Bool
  | .int _ => true
  | .boolean _ => true
  | _ => false

/-- Python `isinstance(v, str)`. -/
def PyVal.isStr : PyVal → Bool
  | .str _ => true
  | _ => false

/-- Exceptions that `InputValidator.__post_init__` can raise. -/
inductive PyErr where
  | typeError
  | indexError
deriving Repr, DecidableEq

namespace InputValidator

/-- The shape the asserts demand of `data[0]`:
a 3-tuple of `int`, `int`, `str`. -/
def goodFirst : PyVal → Bool
  | .tuple [a, b, c] => a.isInt && b.isInt && c.isStr
  | _ => false

/-- Models `InputValidator.__post_init__`: runs the asserts in order inside a
`try` that catches only `AssertionError` (re-raised as `TypeError`).
Evaluating `data[0]` on an empty list raises `IndexError`, which is not
caught. -/
def postInit (data : PyVal) : Except PyErr Unit :=
  match data with
  | .list l =>
    match l with
    | [] => .error .indexError
    | d0 :: _ =>
      match d0 with
      | .tuple t =>
        match t with
        | [a, b, c] =>
          if a.isInt && b.isInt && c.isStr then .ok () else .error .typeError
        | _ => .error .typeError
      | _ => .error .typeError
  | _ => .error .typeError

end InputValidator

/-! ## Points and distances -/

/-- The frozen dataclass `Point`. -/
structure Point where
  x : ℤ
  y : ℤ
  address : String
deriving Repr, DecidableEq

namespace Route

/-- Models `_calc_distance_between_points`, that is `((x₂-x₁)**2 + (y₂-y₁)**2) ** .5`,
with the float power idealized as the real square root. -/
noncomputable def calcDistanceBetweenPoints (start finish : Point) : ℝ :=
  Real.sqrt (((finish.x - start.x) ^ 2 + (finish.y - start.y) ^ 2 : ℤ) : ℝ)

theorem calcDistanceBetweenPoints_self (p : Point) :
    calcDistanceBetweenPoints p p = 0 := by
  simp [calcDistanceBetweenPoints]

theorem calcDistanceBetweenPoints_symm (p q : Point) :
    calcDistanceBetweenPoints p q = calcDistanceBetweenPoints q p := by
  unfold calcDistanceBetweenPoints
  congr 1
  push_cast
  ring

/-! ## Python dicts as functions to `Option` -/

/-- Python dict assignment `d[k] = v`: pointwise override. -/
def dictUpdate {β : Type} (d : String → Option β) (k : String) (v : β) :
    String → Option β :=
  fun k' => if k' = k then some v else d k'

/-- Models `_generate_row`: one row of the distance table, built by iterating
`row[finish.address] = dist(start, finish)` over `finish_arr`. -/
noncomputable def generateRow (start : Point) (finishArr : List Point) :
    String → Option ℝ :=
  finishArr.foldl
    (fun row finish => dictUpdate row finish.address
      (calcDistanceBetweenPoints start finish))
    (fun _ => none)

/-- Models `_generate_matrix`: the table of distances between points, built by
iterating `matrix[start.address] = _generate_row(start, finish_arr)`. -/
noncomputable def generateMatrix (startArr finishArr : List Point) :
    String → Option (String → Option ℝ) :=
  startArr.foldl
    (fun matrix start => dictUpdate matrix start.address
      (generateRow start finishArr))
    (fun _ => none)

/-- The double dict lookup `self._all_distances[a][b]`. -/
noncomputable def mLookup (matrix : String → Option (String → Option ℝ))
    (a b : String) : Option ℝ :=
  match matrix a with
  | some row => row b
  | none => none

/-! ## `_create_all_combinations`: Heap's algorithm over a mutable list -/

/-- The in-place simultaneous swap `arr[i], arr[j] = arr[j], arr[i]`. -/
def swapL {α : Type} (l : List α) (i j : ℕ) : List α :=
  match l[i]?, l[j]? with
  | some vi, some vj => (l.set i vj).set j vi
  | _, _ => l

/-- The swap performed after each recursive `_permute` call:
`arr[i], arr[len-1] = ...` when `len_arr` is even,
`arr[0], arr[len-1] = ...` when odd. -/
def hswap {α : Type} (K i : ℕ) (l : List α) : List α :=
  if K % 2 = 0 then swapL l i (K - 1) else swapL l 0 (K - 1)

mutual

/-- Models `_permute(arr, len_arr)` of `_create_all_combinations`: returns the
emitted paths (each `[start_addr, *arr, finish_addr]`) and the final state
of the mutated list.  `len_arr = 0` runs an empty loop and emits nothing. -/
def heapRun {α : Type} (s f : α) : ℕ → List α → List (List α) × List α
  | 0, arr => ([], arr)
  | 1, arr => ([s :: (arr ++ [f])], arr)
  | K + 2, arr => heapLoop s f (K + 2) (List.range (K + 2)) arr
termination_by k _ => (k, 0)

/-- The `for i in range(len_arr)` loop body of `_permute`:
recurse at `len_arr - 1`, then swap according to parity. -/
def heapLoop {α : Type} (s f : α) (K : ℕ) : List ℕ → List α → List (List α) × List α
  | [], arr => ([], arr)
  | i :: is, arr =>
    ((heapRun s f (K - 1) arr).1 ++
        (heapLoop s f K is (hswap K i (heapRun s f (K - 1) arr).2)).1,
      (heapLoop s f K is (hswap K i (heapRun s f (K - 1) arr).2)).2)
termination_by is _ => (K - 1, is.length + 1)

end

/-- Models `_create_all_combinations`: permute the addresses of the waypoints
(`self._row_route`), decorating each emission with the start and finish
addresses. -/
def createAllCombinations (start finish : Point) (rowRoute : List Point) :
    List (List String) :=
  (heapRun start.address finish.address
    (rowRoute.map Point.address).length (rowRoute.map Point.address)).1

/-! ### Basic properties of the swap -/

theorem set_of_getElem? {α : Type} {l : List α} {i : ℕ} {v : α}
    (h : l[i]? = some v) : l.set i v = l := by
  apply List.ext_getElem?
  intro n
  rw [List.getElem?_set]
  split
  · next he =>
    subst he
    have hlt : i < l.length := by
      by_contra hge
      rw [List.getElem?_eq_none (by omega)] at h
      exact Option.noConfusion h
    simp [hlt, h.symm]
  · rfl

theorem swapL_self {α : Type} (l : List α) (i : ℕ) : swapL l i i = l := by
  unfold swapL
  cases h : l[i]? with
  | none => rfl
  | some v => simp [List.set_set, set_of_getElem? h]

theorem getElem?_append_len {α : Type} (A : List α) (x : α) (r : List α) :
    (A ++ x :: r)[A.length]? = some x := by
  rw [List.getElem?_append_right (le_refl _)]
  simp

theorem set_append_len {α : Type} (A : List α) (x : α) (r : List α) (y : α) :
    (A ++ x :: r).set A.length y = A ++ y :: r := by
  rw [List.set_append]
  simp

theorem swapL_decomp {α : Type} (A : List α) (a : α) (B : List α) (b : α)
    (C : List α) :
    swapL (A ++ a :: (B ++ b :: C)) A.length (A.length + B.length + 1) =
      A ++ b :: (B ++ a :: C) := by
  have hassoc : A ++ a :: (B ++ b :: C) = (A ++ a :: B) ++ b :: C := by simp
  have hlen : (A ++ a :: B).length = A.length + B.length + 1 := by
    simp; omega
  have h1 : (A ++ a :: (B ++ b :: C))[A.length]? = some a :=
    getElem?_append_len A a (B ++ b :: C)
  have h2 : (A ++ a :: (B ++ b :: C))[A.length + B.length + 1]? = some b := by
    rw [hassoc, ← hlen]
    exact getElem?_append_len (A ++ a :: B) b C
  unfold swapL
  rw [h1, h2]
  simp only
  rw [set_append_len A a (B ++ b :: C) b]
  have hassoc2 : A ++ b :: (B ++ b :: C) = (A ++ b :: B) ++ b :: C := by simp
  have hlen2 : (A ++ b :: B).length = A.length + B.length + 1 := by
    simp; omega
  rw [hassoc2, ← hlen2, set_append_len (A ++ b :: B) b C a]
  simp

theorem perm_cons_swap_append {α : Type} (a b : α) (B C : List α) :
    (b :: (B ++ a :: C)).Perm (a :: (B ++ b :: C)) :=
  ((List.Perm.cons b List.perm_middle).trans (List.Perm.swap a b (B ++ C))).trans
    (List.Perm.cons a List.perm_middle.symm)

/-- Rotate a list one position to the right (the net effect of one
odd-level loop iteration of `_permute`). -/
def rotR {α : Type} (l : List α) : List α :=
  match l.reverse with
  | [] => []
  | x :: t => x :: t.reverse

theorem rotR_concat {α : Type} (w : List α) (e : α) : rotR (w ++ [e]) = e :: w := by
  simp [rotR]

/-! ### The number of emitted paths (`n!` for `n ≥ 1`, `0` for `n = 0`) -/

theorem heapLoop_count {α : Type} (s f : α) (K : ℕ)
    (hrec : ∀ arr : List α,
      (heapRun s f (K - 1) arr).1.length = Nat.factorial (K - 1)) :
    ∀ (is : List ℕ) (arr : List α),
      (heapLoop s f K is arr).1.length = is.length * Nat.factorial (K - 1) := by
  intro is
  induction is with
  | nil => intro arr; simp [heapLoop]
  | cons i is ih =>
    intro arr
    simp [heapLoop, hrec, ih]
    ring

theorem heapRun_count {α : Type} (s f : α) :
    ∀ (K : ℕ) (arr : List α),
      (heapRun s f K arr).1.length = if K = 0 then 0 else Nat.factorial K := by
  intro K
  induction K using Nat.strong_induction_on with
  | _ K IH =>
    match K with
    | 0 => intro arr; simp [heapRun]
    | 1 => intro arr; simp [heapRun]
    | K + 2 =>
      intro arr
      have hrec : ∀ arr : List α,
          (heapRun s f (K + 2 - 1) arr).1.length = Nat.factorial (K + 2 - 1) := by
        intro arr
        have := IH (K + 1) (by omega) arr
        simpa using this
      rw [heapRun]
      rw [heapLoop_count s f (K + 2) hrec (List.range (K + 2)) arr]
      simp [Nat.factorial]

/-! ### The full specification of `_permute`

`HeapSpec s f m` characterises a call `_permute(arr, m)` on an array whose
first `m` entries are `xs` and whose tail is `ys`: the final array state is
`xs` itself when `m` is odd (or `m ≤ 1`), the right rotation of `xs` when
`m` is even, and the emitted paths are exactly the decorated permutations
of `xs` (for `m ≥ 1`). -/
def HeapSpec {α : Type} (s f : α) (m : ℕ) : Prop :=
  ∀ xs ys : List α, xs.length = m →
    ((heapRun s f m (xs ++ ys)).2 =
      (if m % 2 = 0 ∧ 2 ≤ m then rotR xs else xs) ++ ys) ∧
    (1 ≤ m → ∀ out, out ∈ (heapRun s f m (xs ++ ys)).1 ↔
      ∃ p, p.Perm xs ∧ out = s :: ((p ++ ys) ++ [f]))

/-- One right rotation, phrased on the drop/take split: the rotated list
`e :: w` split at `t + 1` matches the original `w ++ [e]` split at `t`. -/
theorem rot_drop_take {α : Type} (w : List α) (e : α) (t : ℕ) (ht : t ≤ w.length) :
    (e :: w).drop (t + 1) ++ (e :: w).take (t + 1) =
      (w ++ [e]).drop t ++ (w ++ [e]).take t := by
  rw [List.drop_append_of_le_length ht, List.take_append_of_le_length ht]
  simp

theorem oddLoop {α : Type} (s f : α) (K : ℕ) (hK3 : 3 ≤ K) (hKo : K % 2 = 1)
    (HR : HeapSpec s f (K - 1)) :
    ∀ (is : List ℕ) (z ys : List α), z.length = K → is.length ≤ K →
      ((heapLoop s f K is (z ++ ys)).2 =
        (z.drop (K - is.length) ++ z.take (K - is.length)) ++ ys) ∧
      (∀ out, out ∈ (heapLoop s f K is (z ++ ys)).1 ↔
        ∃ q c, c ∈ z.drop (K - is.length) ∧ (q ++ [c]).Perm z ∧
          out = s :: (((q ++ [c]) ++ ys) ++ [f])) := by
  intro is
  induction is with
  | nil =>
    intro z ys hz _
    constructor
    · simp [heapLoop, ← hz]
    · intro out
      simp [heapLoop, ← hz]
  | cons i is ih =>
    intro z ys hz hn
    have hn' : is.length + 1 ≤ K := by simpa using hn
    have hzne : z ≠ [] := by
      intro h; rw [h] at hz; simp at hz; omega
    obtain ⟨w, e, rfl⟩ : ∃ w e, z = w ++ [e] :=
      ⟨z.dropLast, z.getLast hzne, (List.dropLast_append_getLast hzne).symm⟩
    have hw : w.length = K - 1 := by
      simp at hz; omega
    have hwne : w ≠ [] := by
      intro h; rw [h] at hw; simp at hw; omega
    obtain ⟨w2, g, rfl⟩ : ∃ w2 g, w = w2 ++ [g] :=
      ⟨w.dropLast, w.getLast hwne, (List.dropLast_append_getLast hwne).symm⟩
    have hw2 : w2.length = K - 2 := by
      simp at hw; omega
    -- the recursive call at K - 1 acts on the prefix `w2 ++ [g]`
    have hR := HR (w2 ++ [g]) ([e] ++ ys) (by simpa using hw)
    rw [if_pos (by omega : (K - 1) % 2 = 0 ∧ 2 ≤ K - 1), rotR_concat] at hR
    have harg : (w2 ++ [g]) ++ ([e] ++ ys) = ((w2 ++ [g]) ++ [e]) ++ ys := by
      simp
    rw [harg] at hR
    -- the state after the swap of this iteration is the right rotation
    have hsw := swapL_decomp ([] : List α) g w2 e ys
    simp only [List.length_nil, List.nil_append, Nat.zero_add] at hsw
    have hswap_eq :
        hswap K i (heapRun s f (K - 1) (((w2 ++ [g]) ++ [e]) ++ ys)).2 =
          (e :: (w2 ++ [g])) ++ ys := by
      rw [hR.1]
      rw [hswap, if_neg (by omega : ¬ K % 2 = 0)]
      have hshape : (g :: w2) ++ ([e] ++ ys) = g :: (w2 ++ e :: ys) := by
        simp
      have hidx : K - 1 = w2.length + 1 := by omega
      rw [hshape, hidx, hsw]
      simp
    have hih := ih (e :: (w2 ++ [g])) ys (by simp; omega) (by omega)
    have htK : K - (is.length + 1) + 1 = K - is.length := by omega
    have ht_le : K - (is.length + 1) ≤ (w2 ++ [g]).length := by
      simp; omega
    have hrot := rot_drop_take (w2 ++ [g]) e (K - (is.length + 1)) ht_le
    rw [htK] at hrot
    constructor
    · -- final state of the remaining loop
      show (heapLoop s f K (i :: is) (((w2 ++ [g]) ++ [e]) ++ ys)).2 = _
      rw [heapLoop, hswap_eq, hih.1]
      simp only [List.length_cons]
      rw [← hrot]
    · -- emitted paths
      intro out
      show out ∈ (heapLoop s f K (i :: is) (((w2 ++ [g]) ++ [e]) ++ ys)).1 ↔ _
      rw [heapLoop]
      simp only [List.mem_append, List.length_cons]
      rw [hswap_eq]
      rw [hih.2 out, hR.2 (by omega) out]
      constructor
      · rintro (⟨p, hp, rfl⟩ | ⟨q, c, hc, hqc, rfl⟩)
        · -- an emission of the recursive call: fixed last element `e`
          refine ⟨p, e, ?_, ?_, by simp⟩
          · rw [List.drop_append_of_le_length ht_le]
            simp
          · exact (List.perm_append_right_iff [e]).mpr hp
        · -- an emission of a later iteration, transported along the rotation
          refine ⟨q, c, ?_, ?_, rfl⟩
          · rw [← htK, List.drop_succ_cons] at hc
            rw [List.drop_append_of_le_length ht_le]
            exact List.mem_append_left _ hc
          · exact hqc.trans (List.perm_append_singleton e (w2 ++ [g])).symm
      · rintro ⟨q, c, hc, hqc, rfl⟩
        rw [List.drop_append_of_le_length ht_le] at hc
        rcases List.mem_append.mp hc with hcw | hce
        · -- later iteration
          right
          refine ⟨q, c, ?_, ?_, rfl⟩
          · rw [← htK, List.drop_succ_cons]
            exact hcw
          · exact hqc.trans (List.perm_append_singleton e (w2 ++ [g]))
        · -- this iteration: the last element is `e`
          left
          obtain rfl : c = e := by simpa using hce
          exact ⟨q, (List.perm_append_right_iff [c]).mp hqc, by simp⟩

theorem evenLoop {α : Type} (s f : α) (K : ℕ) (hK2 : 2 ≤ K) (hKe : K % 2 = 0)
    (HR : HeapSpec s f (K - 1)) :
    ∀ (M P : List α) (d c : α) (ys : List α), P.length + M.length + 2 = K →
      ((heapLoop s f K (List.range' (P.length + 1) (M.length + 1))
          ((d :: (P ++ (M ++ [c]))) ++ ys)).2 = (d :: (P ++ (c :: M))) ++ ys) ∧
      (∀ out, out ∈ (heapLoop s f K (List.range' (P.length + 1) (M.length + 1))
          ((d :: (P ++ (M ++ [c]))) ++ ys)).1 ↔
        ∃ q e, e ∈ c :: M ∧ (q ++ [e]).Perm (d :: (P ++ (M ++ [c]))) ∧
          out = s :: (((q ++ [e]) ++ ys) ++ [f])) := by
  intro M
  induction M with
  | nil =>
    intro P d c ys hPK
    simp only [List.length_nil] at hPK
    simp only [List.length_nil, Nat.zero_add]
    -- a single iteration with index K - 1; its swap is a no-op
    have hP1 : P.length + 1 = K - 1 := by omega
    have hR := HR (d :: P) ([c] ++ ys) (by simp; omega)
    rw [if_neg (by omega : ¬((K - 1) % 2 = 0 ∧ 2 ≤ K - 1))] at hR
    have harg : (d :: P) ++ ([c] ++ ys) = (d :: (P ++ ([] ++ [c]))) ++ ys := by
      simp
    rw [harg] at hR
    have hswap_eq :
        hswap K (P.length + 1)
            (heapRun s f (K - 1) ((d :: (P ++ ([] ++ [c]))) ++ ys)).2 =
          (d :: (P ++ ([] ++ [c]))) ++ ys := by
      rw [hR.1, ← harg]
      rw [hswap, if_pos hKe, show K - 1 = P.length + 1 from hP1.symm, swapL_self]
    have hfix1 : (heapLoop s f K (List.range' (P.length + 1) 1)
        ((d :: (P ++ ([] ++ [c]))) ++ ys)).1 =
          (heapRun s f (K - 1) ((d :: (P ++ ([] ++ [c]))) ++ ys)).1 := by
      rw [List.range'_one, heapLoop, hswap_eq, heapLoop]
      simp
    have hfix2 : (heapLoop s f K (List.range' (P.length + 1) 1)
        ((d :: (P ++ ([] ++ [c]))) ++ ys)).2 =
          (d :: (P ++ ([] ++ [c]))) ++ ys := by
      rw [List.range'_one, heapLoop, hswap_eq, heapLoop]
    constructor
    · rw [hfix2]
      simp
    · intro out
      rw [hfix1, hR.2 (by omega) out]
      constructor
      · rintro ⟨p, hp, rfl⟩
        refine ⟨p, c, by simp, ?_, by simp⟩
        have hps : (d :: (P ++ ([] ++ [c]))) = (d :: P) ++ [c] := by simp
        rw [hps]
        exact (List.perm_append_right_iff [c]).mpr hp
      · rintro ⟨q, e, he, hqe, rfl⟩
        obtain rfl : e = c := by simpa using he
        refine ⟨q, ?_, by simp⟩
        have hps : (d :: (P ++ ([] ++ [e]))) = (d :: P) ++ [e] := by simp
        rw [hps] at hqe
        exact (List.perm_append_right_iff [e]).mp hqe
  | cons m0 M ih =>
    intro P d c ys hPK
    simp only [List.length_cons] at hPK
    simp only [List.length_cons]
    have hR := HR (d :: (P ++ (m0 :: M))) ([c] ++ ys) (by simp; omega)
    rw [if_neg (by omega : ¬((K - 1) % 2 = 0 ∧ 2 ≤ K - 1))] at hR
    have harg : (d :: (P ++ (m0 :: M))) ++ ([c] ++ ys) =
        (d :: (P ++ ((m0 :: M) ++ [c]))) ++ ys := by
      simp
    rw [harg] at hR
    -- the swap moves `c` into the processed prefix and `m0` to the end
    have hswap_eq :
        hswap K (P.length + 1)
            (heapRun s f (K - 1) ((d :: (P ++ ((m0 :: M) ++ [c]))) ++ ys)).2 =
          (d :: ((P ++ [c]) ++ (M ++ [m0]))) ++ ys := by
      rw [hR.1, ← harg]
      rw [hswap, if_pos hKe]
      have hshape : (d :: (P ++ (m0 :: M))) ++ ([c] ++ ys) =
          (d :: P) ++ m0 :: (M ++ c :: ys) := by simp
      have hidx1 : P.length + 1 = (d :: P).length := by simp
      have hidx2 : K - 1 = (d :: P).length + M.length + 1 := by simp; omega
      rw [hshape, hidx1, hidx2, swapL_decomp (d :: P) m0 M c ys]
      simp
    -- the remaining iterations are handled by the induction hypothesis
    have hih := ih (P ++ [c]) d m0 ys (by simp; omega)
    have hrange : List.range' ((P ++ [c]).length + 1) (M.length + 1) =
        List.range' (P.length + 1 + 1) (M.length + 1) := by simp
    rw [hrange] at hih
    have hfix1 : (heapLoop s f K (List.range' (P.length + 1) (M.length + 1 + 1))
        ((d :: (P ++ ((m0 :: M) ++ [c]))) ++ ys)).1 =
          (heapRun s f (K - 1) ((d :: (P ++ ((m0 :: M) ++ [c]))) ++ ys)).1 ++
            (heapLoop s f K (List.range' (P.length + 1 + 1) (M.length + 1))
              ((d :: ((P ++ [c]) ++ (M ++ [m0]))) ++ ys)).1 := by
      rw [List.range'_succ, heapLoop, hswap_eq]
    have hfix2 : (heapLoop s f K (List.range' (P.length + 1) (M.length + 1 + 1))
        ((d :: (P ++ ((m0 :: M) ++ [c]))) ++ ys)).2 =
          (heapLoop s f K (List.range' (P.length + 1 + 1) (M.length + 1))
            ((d :: ((P ++ [c]) ++ (M ++ [m0]))) ++ ys)).2 := by
      rw [List.range'_succ, heapLoop, hswap_eq]
    -- transporting permutations across the swap
    have htrans : (d :: ((P ++ [c]) ++ (M ++ [m0]))).Perm
        (d :: (P ++ ((m0 :: M) ++ [c]))) := by
      have h1 : (d :: ((P ++ [c]) ++ (M ++ [m0]))) = d :: (P ++ (c :: (M ++ [m0]))) := by
        simp
      have h2 : (d :: (P ++ ((m0 :: M) ++ [c]))) = d :: (P ++ (m0 :: (M ++ [c]))) := by
        simp
      rw [h1, h2]
      exact List.Perm.cons d (List.Perm.append_left P (perm_cons_swap_append m0 c M []))
    constructor
    · rw [hfix2, hih.1]
      simp
    · intro out
      rw [hfix1]
      rw [List.mem_append]
      rw [hih.2 out, hR.2 (by omega) out]
      constructor
      · rintro (⟨p, hp, rfl⟩ | ⟨q, e, he, hqe, rfl⟩)
        · refine ⟨p, c, by simp, ?_, by simp⟩
          have hps : (d :: (P ++ ((m0 :: M) ++ [c]))) =
              (d :: (P ++ (m0 :: M))) ++ [c] := by
            simp
          rw [hps]
          exact (List.perm_append_right_iff [c]).mpr hp
        · exact ⟨q, e, List.mem_cons_of_mem c he, hqe.trans htrans, rfl⟩
      · rintro ⟨q, e, he, hqe, rfl⟩
        rcases List.mem_cons.mp he with rfl | he'
        · left
          refine ⟨q, ?_, by simp⟩
          have hps : (d :: (P ++ ((m0 :: M) ++ [e]))) =
              (d :: (P ++ (m0 :: M))) ++ [e] := by
            simp
          rw [hps] at hqe
          exact (List.perm_append_right_iff [e]).mp hqe
        · exact Or.inr ⟨q, e, he', hqe.trans htrans.symm, rfl⟩

/-- Full specification of `_permute`: final state and completeness and
soundness of the emitted paths, for every prefix length. -/
theorem heap_spec {α : Type} (s f : α) : ∀ m, HeapSpec s f m := by
  intro m
  induction m using Nat.strong_induction_on with
  | _ m IH =>
    match m with
    | 0 =>
      intro xs ys hlen
      have hxs : xs = [] := List.length_eq_zero.mp hlen
      subst hxs
      refine ⟨by simp [heapRun], ?_⟩
      intro h
      omega
    | 1 =>
      intro xs ys hlen
      obtain ⟨x, rfl⟩ := List.length_eq_one.mp hlen
      refine ⟨by simp [heapRun], ?_⟩
      intro _ out
      constructor
      · intro hout
        refine ⟨[x], List.Perm.refl _, ?_⟩
        have hform : out = s :: (([x] ++ ys) ++ [f]) := by
          simpa [heapRun] using hout
        simpa using hform
      · rintro ⟨p, hp, rfl⟩
        rw [List.perm_singleton.mp hp]
        simp [heapRun]
    | K + 2 =>
      have HR : HeapSpec s f (K + 2 - 1) := by
        rw [show K + 2 - 1 = K + 1 by omega]
        exact IH (K + 1) (by omega)
      intro xs ys hlen
      rcases Nat.mod_two_eq_zero_or_one (K + 2) with hpar | hpar
      · -- K + 2 even: a first iteration, then the rotated loop
        cases xs with
        | nil => simp at hlen
        | cons x0 rest =>
          have hrest : rest.length = K + 1 := by simpa using hlen
          have hrne : rest ≠ [] := by
            intro h; rw [h] at hrest; simp at hrest
          obtain ⟨Mid, xl, rfl⟩ : ∃ Md xl, rest = Md ++ [xl] :=
            ⟨rest.dropLast, rest.getLast hrne,
              (List.dropLast_append_getLast hrne).symm⟩
          have hMid : Mid.length = K := by simp at hrest; omega
          have hR1 := HR (x0 :: Mid) ([xl] ++ ys) (by simp [hMid])
          rw [if_neg (by omega : ¬((K + 2 - 1) % 2 = 0 ∧ 2 ≤ K + 2 - 1))] at hR1
          have harg : (x0 :: Mid) ++ ([xl] ++ ys) = (x0 :: (Mid ++ [xl])) ++ ys := by
            simp
          rw [harg] at hR1
          have hsw := swapL_decomp ([] : List α) x0 Mid xl ys
          simp only [List.length_nil, List.nil_append, Nat.zero_add] at hsw
          have hswap_eq : hswap (K + 2) 0
              (heapRun s f (K + 2 - 1) ((x0 :: (Mid ++ [xl])) ++ ys)).2 =
                (xl :: ([] ++ (Mid ++ [x0]))) ++ ys := by
            rw [hR1.1]
            rw [hswap, if_pos hpar]
            have hshape : (x0 :: (Mid ++ [xl])) ++ ys = x0 :: (Mid ++ xl :: ys) := by
              simp
            have hidx : K + 2 - 1 = Mid.length + 1 := by simp [hMid]
            rw [hshape, hidx, hsw]
            simp
          have hEL := evenLoop s f (K + 2) (by omega) hpar HR Mid [] xl x0 ys
            (by simp [hMid])
          have hr2 : List.range' (([] : List α).length + 1) (Mid.length + 1) =
              List.range' 1 (K + 1) := by simp [hMid]
          rw [hr2] at hEL
          have hrange : List.range (K + 2) = 0 :: List.range' 1 (K + 1) := by
            rw [List.range_eq_range', List.range'_succ]
          have hfix1 : (heapRun s f (K + 2) ((x0 :: (Mid ++ [xl])) ++ ys)).1 =
              (heapRun s f (K + 2 - 1) ((x0 :: (Mid ++ [xl])) ++ ys)).1 ++
                (heapLoop s f (K + 2) (List.range' 1 (K + 1))
                  ((xl :: ([] ++ (Mid ++ [x0]))) ++ ys)).1 := by
            rw [heapRun, hrange, heapLoop, hswap_eq]
          have hfix2 : (heapRun s f (K + 2) ((x0 :: (Mid ++ [xl])) ++ ys)).2 =
              (heapLoop s f (K + 2) (List.range' 1 (K + 1))
                ((xl :: ([] ++ (Mid ++ [x0]))) ++ ys)).2 := by
            rw [heapRun, hrange, heapLoop, hswap_eq]
          have htrans2 : (xl :: ([] ++ (Mid ++ [x0]))).Perm (x0 :: (Mid ++ [xl])) := by
            simpa using perm_cons_swap_append x0 xl Mid ([] : List α)
          refine ⟨?_, ?_⟩
          · rw [hfix2, hEL.1, if_pos ⟨hpar, by omega⟩]
            have hrot : rotR (x0 :: (Mid ++ [xl])) = xl :: (x0 :: Mid) := by
              rw [show x0 :: (Mid ++ [xl]) = (x0 :: Mid) ++ [xl] by simp, rotR_concat]
            rw [hrot]
            simp
          · intro _ out
            rw [hfix1, List.mem_append, hEL.2 out, hR1.2 (by omega) out]
            constructor
            · rintro (⟨p, hp, rfl⟩ | ⟨q, e, he, hqe, rfl⟩)
              · refine ⟨p ++ [xl], ?_, by simp⟩
                rw [show x0 :: (Mid ++ [xl]) = (x0 :: Mid) ++ [xl] by simp]
                exact List.Perm.append_right [xl] hp
              · exact ⟨q ++ [e], hqe.trans htrans2, by simp⟩
            · rintro ⟨p, hp, rfl⟩
              have hpne : p ≠ [] := by
                intro h
                rw [h] at hp
                have hl := hp.length_eq
                simp at hl
              obtain ⟨q, e, rfl⟩ : ∃ q e, p = q ++ [e] :=
                ⟨p.dropLast, p.getLast hpne,
                  (List.dropLast_append_getLast hpne).symm⟩
              have he : e ∈ x0 :: (Mid ++ [xl]) := hp.subset (by simp)
              have he' : e ∈ (x0 :: Mid) ∨ e = xl := by
                rcases List.mem_cons.mp he with h | h
                · exact Or.inl (by simp [h])
                · rcases List.mem_append.mp h with h2 | h2
                  · exact Or.inl (by simp [h2])
                  · exact Or.inr (by simpa using h2)
              rcases he' with he1 | rfl
              · right
                exact ⟨q, e, he1, hp.trans htrans2.symm, by simp⟩
              · left
                refine ⟨q, ?_, by simp⟩
                rw [show x0 :: (Mid ++ [e]) = (x0 :: Mid) ++ [e] by simp] at hp
                exact (List.perm_append_right_iff [e]).mp hp
      · -- K + 2 odd: the whole loop is handled by `oddLoop`
        have hOL := oddLoop s f (K + 2) (by omega) hpar HR (List.range (K + 2))
          xs ys hlen (by simp)
        have hlen_r : (List.range (K + 2)).length = K + 2 := by simp
        rw [hlen_r, show K + 2 - (K + 2) = 0 by omega, List.drop_zero,
          List.take_zero] at hOL
        refine ⟨?_, ?_⟩
        · rw [heapRun, hOL.1, if_neg (by omega)]
          simp
        · intro _ out
          rw [heapRun, hOL.2 out]
          constructor
          · rintro ⟨q, c, hc, hqc, rfl⟩
            exact ⟨q ++ [c], hqc, by simp⟩
          · rintro ⟨p, hp, rfl⟩
            have hpne : p ≠ [] := by
              intro h
              rw [h] at hp
              have hl := hp.length_eq
              rw [hlen] at hl
              simp at hl
            obtain ⟨q, c, rfl⟩ : ∃ q c, p = q ++ [c] :=
              ⟨p.dropLast, p.getLast hpne,
                (List.dropLast_append_getLast hpne).symm⟩
            exact ⟨q, c, hp.subset (by simp), hp, by simp⟩

/-! ### Looking up the distance matrix -/

theorem fold_dictUpdate_lookup {β : Type} (g : Point → β) (l : List Point)
    (init : String → Option β) (k : String) :
    (l.foldl (fun d p => dictUpdate d p.address (g p)) init) k =
      (match l.reverse.find? (fun p => p.address == k) with
        | some p => some (g p)
        | none => init k) := by
  induction l generalizing init with
  | nil => simp
  | cons p l ih =>
    rw [List.foldl_cons, ih, List.reverse_cons, List.find?_append]
    cases hf : l.reverse.find? (fun q => q.address == k) with
    | some q => simp [hf]
    | none =>
      by_cases hk : p.address = k
      · simp [hf, hk, dictUpdate]
      · simp [hf, hk, dictUpdate, Ne.symm hk]

/-- In a list whose addresses determine its points, `find?` by address
returns the point itself. -/
theorem find?_address_of_inj (l : List Point)
    (hinj : ∀ p ∈ l, ∀ q ∈ l, p.address = q.address → p = q)
    (a : Point) (ha : a ∈ l) :
    l.find? (fun p => p.address == a.address) = some a := by
  induction l with
  | nil => simp at ha
  | cons p l ih =>
    by_cases hp : p.address = a.address
    · have : p = a := hinj p (by simp) a ha hp
      subst this
      simp
    · have ha' : a ∈ l := by
        rcases List.mem_cons.mp ha with rfl | h
        · exact absurd rfl hp
        · exact h
      rw [List.find?_cons_of_neg _ (by simpa using hp)]
      exact ih (fun x hx y hy => hinj x (List.mem_cons_of_mem p hx)
        y (List.mem_cons_of_mem p hy)) ha'

/-- The central matrix lemma: for points whose addresses determine them,
the double lookup returns exactly the Euclidean distance. -/
theorem mLookup_generateMatrix (l : List Point)
    (hinj : ∀ p ∈ l, ∀ q ∈ l, p.address = q.address → p = q)
    (a b : Point) (ha : a ∈ l) (hb : b ∈ l) :
    mLookup (generateMatrix l l) a.address b.address =
      some (calcDistanceBetweenPoints a b) := by
  have hinjr : ∀ p ∈ l.reverse, ∀ q ∈ l.reverse, p.address = q.address → p = q :=
    fun p hp q hq => hinj p (List.mem_reverse.mp hp) q (List.mem_reverse.mp hq)
  have hfa := find?_address_of_inj l.reverse hinjr a (List.mem_reverse.mpr ha)
  have hfb := find?_address_of_inj l.reverse hinjr b (List.mem_reverse.mpr hb)
  unfold mLookup generateMatrix generateRow
  rw [fold_dictUpdate_lookup, hfa]
  show (l.foldl
      (fun row finish => dictUpdate row finish.address
        (calcDistanceBetweenPoints a finish)) (fun _ => none)) b.address =
    some (calcDistanceBetweenPoints a b)
  rw [fold_dictUpdate_lookup, hfb]

/-! ## `_calculate_minimal_route`: the selection loop -/

/-- The inner loop of `_calculate_minimal_route`:
`route_dist += self._all_distances[start_point][point_address];
start_point = point_address`, failing like a `KeyError` on a missing key. -/
noncomputable def innerCost (matrix : String → Option (String → Option ℝ)) :
    ℝ → String → List String → Option (ℝ × String)
  | d, st, [] => some (d, st)
  | d, st, a :: rest =>
    match mLookup matrix st a with
    | some v => innerCost matrix (d + v) a rest
    | none => none

/-- The successive values of `route_dist` along a path (the running sums
accumulated during selection). -/
noncomputable def innerScan (matrix : String → Option (String → Option ℝ)) :
    ℝ → String → List String → Option (List ℝ)
  | _, _, [] => some []
  | d, st, a :: rest =>
    match mLookup matrix st a with
    | some v => (innerScan matrix (d + v) a rest).map (fun t => (d + v) :: t)
    | none => none

/-- The outer loop of `_calculate_minimal_route`: `mininal_distance`
starts at `math.inf` (modelled `⊤ : EReal`), a candidate replaces the best
only on `mininal_distance > route_dist`, and the loop variable
`start_point` carries over from one path to the next. -/
noncomputable def selectLoop (matrix : String → Option (String → Option ℝ)) :
    EReal → List String → String → List (List String) →
      Option (EReal × List String × String)
  | minD, minP, st, [] => some (minD, minP, st)
  | minD, minP, st, path :: rest =>
    match innerCost matrix 0 st path with
    | some (d, st2) =>
      if (d : EReal) < minD then selectLoop matrix d path st2 rest
      else selectLoop matrix minD minP st2 rest
    | none => none

/-- Models `_get_point_by_address`: searches only `self._row_route`, returning
`None` (here `none`) for the depot address. -/
def getPointByAddress (rowRoute : List Point) (address : String) : Option Point :=
  rowRoute.find? (fun p => p.address == address)

/-- Builds `Point(*t)` from an input triple. -/
def mkPoint (t : ℤ × ℤ × String) : Point :=
  ⟨t.1, t.2.1, t.2.2⟩

/-- The list `points = [self._start_point, *self._row_route, self._finish_point]`,
where start and finish are both `Point(*data[0])`. -/
def routePoints (start : Point) (rowRoute : List Point) : List Point :=
  start :: (rowRoute ++ [start])

/-- The distance matrix `_generate_matrix(points, points)`. -/
noncomputable def routeMatrix (start : Point) (rowRoute : List Point) :
    String → Option (String → Option ℝ) :=
  generateMatrix (routePoints start rowRoute) (routePoints start rowRoute)

/-- Models `_set_preroute` followed by `_calculate_minimal_route`:
start and finish points are both built from `data[0]`, the waypoints from
`data[1:]`; the distance matrix is built over
`[start, *row_route, finish]`; all permutations are generated and scored;
the result holds `minimal_distance`, `minimal_path` and the points list
`_display["points"]` (depot addresses map to `none` because
`_get_point_by_address` searches only `_row_route`). An empty input,
which would raise `IndexError` in Python, is `none`. -/
noncomputable def calculateMinimalRoute (data : List (ℤ × ℤ × String)) :
    Option (EReal × List String × List (Option Point)) :=
  match data with
  | [] => none
  | t0 :: rest =>
    match selectLoop (routeMatrix (mkPoint t0) (rest.map mkPoint))
        ⊤ [] (mkPoint t0).address
        (createAllCombinations (mkPoint t0) (mkPoint t0) (rest.map mkPoint)) with
    | some (minD, minP, _) =>
      some (minD, minP, minP.map (getPointByAddress (rest.map mkPoint)))
    | none => none

/-- The numeric skeleton of the `display` property: walk
`_display["points"]`, skipping `None` entries, accumulating
`distance += _calc_distance_between_points(previous, point)` and emitting
each cumulative value. -/
noncomputable def displayLegs (previous : Point) (distance : ℝ) :
    List (Option Point) → List ℝ
  | [] => []
  | none :: rest => displayLegs previous distance rest
  | some p :: rest =>
    (distance + calcDistanceBetweenPoints previous p) ::
      displayLegs p (distance + calcDistanceBetweenPoints previous p) rest

/-- The cost of a tour as the specification words it: the sum of
Euclidean distances between consecutive points. -/
noncomputable def tourCost (previous : Point) : List Point → ℝ
  | [] => 0
  | p :: rest => calcDistanceBetweenPoints previous p + tourCost p rest

/-- Characterisation of the selection loop: it succeeds whenever every
candidate's cost computes and the carried `start_point` returns to `st0`;
the result is a lower bound of every candidate cost; and the chosen path
is either the untouched accumulator (no strict improvement ever) or the
first candidate attaining the final minimum, every earlier candidate
being strictly costlier. -/
theorem selectLoop_char (matrix : String → Option (String → Option ℝ))
    (st0 : String) :
    ∀ (paths : List (List String)) (minD : EReal) (minP : List String),
      (∀ path ∈ paths, ∃ c : ℝ, innerCost matrix 0 st0 path = some (c, st0)) →
      ∃ mD mP, selectLoop matrix minD minP st0 paths = some (mD, mP, st0) ∧
        mD ≤ minD ∧
        (∀ path c, path ∈ paths → innerCost matrix 0 st0 path = some (c, st0) →
          mD ≤ (c : EReal)) ∧
        ((mD = minD ∧ mP = minP) ∨
          ∃ pre c post, paths = pre ++ mP :: post ∧
            innerCost matrix 0 st0 mP = some (c, st0) ∧ mD = (c : EReal) ∧
            mD < minD ∧
            ∀ path2 c2, path2 ∈ pre →
              innerCost matrix 0 st0 path2 = some (c2, st0) →
                mD < (c2 : EReal)) := by
  intro paths
  induction paths with
  | nil =>
    intro minD minP _
    exact ⟨minD, minP, by rw [selectLoop], le_refl _, by simp,
      Or.inl ⟨rfl, rfl⟩⟩
  | cons path rest ih =>
    intro minD minP hsucc
    obtain ⟨c, hc⟩ := hsucc path (by simp)
    have hrest : ∀ p ∈ rest, ∃ c : ℝ, innerCost matrix 0 st0 p = some (c, st0) :=
      fun p hp => hsucc p (List.mem_cons_of_mem _ hp)
    by_cases hlt : (c : EReal) < minD
    · obtain ⟨mD, mP, hsel, hle, hall, hdisj⟩ := ih (c : EReal) path hrest
      refine ⟨mD, mP, ?_, le_of_lt (lt_of_le_of_lt hle hlt), ?_, ?_⟩
      · rw [selectLoop]
        simp only [hc]
        rw [if_pos hlt]
        exact hsel
      · intro p c2 hp hcp
        rcases List.mem_cons.mp hp with rfl | hp2
        · have hcc : c = c2 := by rw [hc] at hcp; simpa using hcp
          rw [← hcc]
          exact hle
        · exact hall p c2 hp2 hcp
      · rcases hdisj with ⟨hmD, hmP⟩ | ⟨pre, c3, post, hsplit, hic, hmd, hlt3, hpre⟩
        · right
          refine ⟨[], c, rest, by simp [hmP], ?_, by rw [hmD], ?_, by simp⟩
          · rw [hmP]; exact hc
          · rw [hmD]; exact hlt
        · right
          refine ⟨path :: pre, c3, post, by rw [hsplit]; rfl, hic, hmd,
            lt_trans hlt3 hlt, ?_⟩
          intro p2 c2 hp2 hcp2
          rcases List.mem_cons.mp hp2 with rfl | hp3
          · have hcc : c = c2 := by rw [hc] at hcp2; simpa using hcp2
            rw [← hcc]
            exact hlt3
          · exact hpre p2 c2 hp3 hcp2
    · obtain ⟨mD, mP, hsel, hle, hall, hdisj⟩ := ih minD minP hrest
      have hge : minD ≤ (c : EReal) := le_of_not_lt hlt
      refine ⟨mD, mP, ?_, hle, ?_, ?_⟩
      · rw [selectLoop]
        simp only [hc]
        rw [if_neg hlt]
        exact hsel
      · intro p c2 hp hcp
        rcases List.mem_cons.mp hp with rfl | hp2
        · have hcc : c = c2 := by rw [hc] at hcp; simpa using hcp
          rw [← hcc]
          exact le_trans hle hge
        · exact hall p c2 hp2 hcp
      · rcases hdisj with ⟨hmD, hmP⟩ | ⟨pre, c3, post, hsplit, hic, hmd, hlt3, hpre⟩
        · exact Or.inl ⟨hmD, hmP⟩
        · right
          refine ⟨path :: pre, c3, post, by rw [hsplit]; rfl, hic, hmd, hlt3, ?_⟩
          intro p2 c2 hp2 hcp2
          rcases List.mem_cons.mp hp2 with rfl | hp3
          · have hcc : c = c2 := by rw [hc] at hcp2; simpa using hcp2
            rw [← hcc]
            exact lt_of_lt_of_le hlt3 hge
          · exact hpre p2 c2 hp3 hcp2

/-- Evaluating the inner loop over the addresses of actual points:
the accumulated cost is the Euclidean tour cost, and the carried
`start_point` ends at the final address. -/
theorem innerCost_app (l : List Point)
    (hinj : ∀ p ∈ l, ∀ q ∈ l, p.address = q.address → p = q) :
    ∀ (q : List Point) (prev last : Point) (acc : ℝ),
      prev ∈ l → last ∈ l → (∀ x ∈ q, x ∈ l) →
      innerCost (generateMatrix l l) acc prev.address
          (q.map Point.address ++ [last.address]) =
        some (acc + tourCost prev (q ++ [last]), last.address) := by
  intro q
  induction q with
  | nil =>
    intro prev last acc hprev hlast _
    rw [List.map_nil, List.nil_append, innerCost]
    simp only [mLookup_generateMatrix l hinj prev last hprev hlast]
    rw [innerCost]
    simp [tourCost]
  | cons x q ih =>
    intro prev last acc hprev hlast hq
    rw [List.map_cons, List.cons_append, innerCost]
    simp only [mLookup_generateMatrix l hinj prev x hprev (hq x (by simp))]
    rw [ih x last (acc + calcDistanceBetweenPoints prev x) (hq x (by simp)) hlast
      (fun y hy => hq y (by simp [hy]))]
    simp [tourCost, add_assoc]

/-- Evaluating the inner loop on a full decorated path
`[depot, *waypoints, depot]`: the first hop contributes
`matrix[depot][depot] = 0`. -/
theorem innerCost_path (l : List Point)
    (hinj : ∀ p ∈ l, ∀ q ∈ l, p.address = q.address → p = q)
    (depot : Point) (hdep : depot ∈ l) (q : List Point)
    (hq : ∀ x ∈ q, x ∈ l) :
    innerCost (generateMatrix l l) 0 depot.address
        (depot.address :: (q.map Point.address ++ [depot.address])) =
      some (tourCost depot (q ++ [depot]), depot.address) := by
  rw [innerCost]
  simp only [mLookup_generateMatrix l hinj depot depot hdep hdep]
  rw [calcDistanceBetweenPoints_self, add_zero,
    innerCost_app l hinj q depot depot 0 hdep hdep hq, zero_add]

/-- Lifting a permutation of addresses back to a permutation of points. -/
theorem perm_map_exists :
    ∀ (p : List String) (row : List Point),
      p.Perm (row.map Point.address) →
      ∃ q : List Point, q.Perm row ∧ p = q.map Point.address := by
  intro p
  induction p with
  | nil =>
    intro row h
    have hmap : row.map Point.address = [] := h.symm.eq_nil
    have hrow : row = [] := List.map_eq_nil_iff.mp hmap
    exact ⟨[], by rw [hrow], rfl⟩
  | cons a p ih =>
    intro row h
    have ha : a ∈ row.map Point.address := h.subset (by simp)
    obtain ⟨pt, hptmem, rfl⟩ := List.mem_map.mp ha
    obtain ⟨r1, r2, rfl⟩ := List.append_of_mem hptmem
    have hmaps : (r1 ++ pt :: r2).map Point.address =
        r1.map Point.address ++ pt.address :: r2.map Point.address := by
      simp
    rw [hmaps] at h
    have h2 : p.Perm (r1.map Point.address ++ r2.map Point.address) :=
      (h.trans List.perm_middle).cons_inv
    have h3 : p.Perm ((r1 ++ r2).map Point.address) := by simpa using h2
    obtain ⟨q, hq, rfl⟩ := ih (r1 ++ r2) h3
    exact ⟨pt :: q, (List.Perm.cons pt hq).trans List.perm_middle.symm, by simp⟩

/-! ### Setup lemmas for a validated input -/

theorem map_address_mkPoint (data : List (ℤ × ℤ × String)) :
    (data.map mkPoint).map Point.address = data.map (fun t => t.2.2) := by
  rw [List.map_map]
  rfl

/-- With distinct addresses over `[depot, *row]`, addresses determine the
points of the matrix construction list (the two copies of the depot are
the same point). -/
theorem routePoints_inj (depot : Point) (row : List Point)
    (hnd : ((depot :: row).map Point.address).Nodup) :
    ∀ p ∈ routePoints depot row, ∀ q ∈ routePoints depot row,
      p.address = q.address → p = q := by
  have hinj := List.inj_on_of_nodup_map hnd
  have hmem : ∀ p, p ∈ routePoints depot row → p ∈ depot :: row := by
    intro p hp
    rcases List.mem_cons.mp hp with rfl | h
    · simp
    · rcases List.mem_append.mp h with h2 | h2
      · simp [h2]
      · simp at h2
        simp [h2]
  intro p hp q hq he
  exact hinj (hmem p hp) (hmem q hq) he

/-- The generated candidate paths are exactly the decorated permutations
of the waypoints. -/
theorem createAllCombinations_mem (depot : Point) (row : List Point)
    (hrow : row ≠ []) :
    ∀ z, z ∈ createAllCombinations depot depot row ↔
      ∃ q : List Point, q.Perm row ∧
        z = depot.address :: (q.map Point.address ++ [depot.address]) := by
  intro z
  have hs := heap_spec depot.address depot.address
    ((row.map Point.address).length) (row.map Point.address) [] rfl
  rw [List.append_nil] at hs
  have h1 : 1 ≤ (row.map Point.address).length := by
    cases row with
    | nil => exact absurd rfl hrow
    | cons a r => simp
  rw [createAllCombinations, hs.2 h1 z]
  constructor
  · rintro ⟨p, hp, rfl⟩
    obtain ⟨q, hq, rfl⟩ := perm_map_exists p row hp
    exact ⟨q, hq, by simp⟩
  · rintro ⟨q, hq, rfl⟩
    exact ⟨q.map Point.address, hq.map Point.address, by simp⟩

/-- Every generated candidate's cost computes, and the carried
`start_point` comes back to the depot address (each path ends with it). -/
theorem createAllCombinations_cost (depot : Point) (row : List Point)
    (hrow : row ≠ [])
    (hnd : ((depot :: row).map Point.address).Nodup) :
    ∀ path ∈ createAllCombinations depot depot row,
      ∃ c : ℝ, innerCost (routeMatrix depot row) 0 depot.address path =
        some (c, depot.address) := by
  intro path hmem
  obtain ⟨q, hq, rfl⟩ := (createAllCombinations_mem depot row hrow path).mp hmem
  refine ⟨tourCost depot (q ++ [depot]), ?_⟩
  rw [routeMatrix]
  exact innerCost_path (routePoints depot row) (routePoints_inj depot row hnd)
    depot (by simp [routePoints]) q
    (fun x hx => by simp [routePoints, hq.subset hx])

/-- The cost the selection loop computes for a decorated permutation is
exactly the Euclidean tour cost. -/
theorem innerCost_routeMatrix (depot : Point) (row : List Point)
    (hnd : ((depot :: row).map Point.address).Nodup)
    (q : List Point) (hq : ∀ x ∈ q, x ∈ row) :
    innerCost (routeMatrix depot row) 0 depot.address
        (depot.address :: (q.map Point.address ++ [depot.address])) =
      some (tourCost depot (q ++ [depot]), depot.address) := by
  rw [routeMatrix]
  exact innerCost_path (routePoints depot row) (routePoints_inj depot row hnd)
    depot (by simp [routePoints]) q
    (fun x hx => by simp [routePoints, hq x hx])

/-- The permutation search always generates at least one candidate when
there is at least one waypoint. -/
theorem createAllCombinations_ne_nil (depot : Point) (row : List Point)
    (hrow : row ≠ []) :
    createAllCombinations depot depot row ≠ [] := by
  intro h
  have hlen := heapRun_count depot.address depot.address
    ((row.map Point.address).length) (row.map Point.address)
  rw [createAllCombinations] at h
  rw [h] at hlen
  have h0 : (row.map Point.address).length ≠ 0 := by
    simpa using hrow
  rw [if_neg h0] at hlen
  exact (Nat.factorial_pos _).ne (by simpa using hlen)

/-- Distinct addresses on the raw triples become distinct addresses on
the constructed points. -/
theorem nodup_addresses (t0 : ℤ × ℤ × String) (rest : List (ℤ × ℤ × String))
    (hnd : ((t0 :: rest).map (fun t => t.2.2)).Nodup) :
    ((mkPoint t0 :: rest.map mkPoint).map Point.address).Nodup := by
  rw [← List.map_cons mkPoint t0 rest, map_address_mkPoint]
  exact hnd

/-- Master lemma for a validated input with at least one waypoint: the
computation succeeds, the reported minimum is a lower bound of every
candidate's cost, and it is attained at the earliest generated candidate
of minimal cost. -/
theorem calculateMinimalRoute_valid (t0 : ℤ × ℤ × String)
    (rest : List (ℤ × ℤ × String)) (hne : rest ≠ [])
    (hnd : ((t0 :: rest).map (fun t => t.2.2)).Nodup) :
    ∃ (mD : EReal) (mP : List String),
      calculateMinimalRoute (t0 :: rest) =
        some (mD, mP, mP.map (getPointByAddress (rest.map mkPoint))) ∧
      (∀ path c, path ∈ createAllCombinations (mkPoint t0) (mkPoint t0)
          (rest.map mkPoint) →
        innerCost (routeMatrix (mkPoint t0) (rest.map mkPoint)) 0
            (mkPoint t0).address path = some (c, (mkPoint t0).address) →
          mD ≤ (c : EReal)) ∧
      ∃ pre c post,
        createAllCombinations (mkPoint t0) (mkPoint t0) (rest.map mkPoint) =
          pre ++ mP :: post ∧
        innerCost (routeMatrix (mkPoint t0) (rest.map mkPoint)) 0
          (mkPoint t0).address mP = some (c, (mkPoint t0).address) ∧
        mD = (c : EReal) ∧
        ∀ path2 c2, path2 ∈ pre →
          innerCost (routeMatrix (mkPoint t0) (rest.map mkPoint)) 0
              (mkPoint t0).address path2 = some (c2, (mkPoint t0).address) →
            mD < (c2 : EReal) := by
  have hndp : ((mkPoint t0 :: rest.map mkPoint).map Point.address).Nodup := by
    rw [← List.map_cons mkPoint t0 rest, map_address_mkPoint]
    exact hnd
  have hrowne : rest.map mkPoint ≠ [] := by
    simpa using hne
  have hsucc := createAllCombinations_cost (mkPoint t0) (rest.map mkPoint)
    hrowne hndp
  obtain ⟨mD, mP, hsel, hle, hall, hdisj⟩ :=
    selectLoop_char (routeMatrix (mkPoint t0) (rest.map mkPoint))
      (mkPoint t0).address
      (createAllCombinations (mkPoint t0) (mkPoint t0) (rest.map mkPoint))
      ⊤ [] hsucc
  refine ⟨mD, mP, ?_, fun path c hp hc => hall path c hp hc, ?_⟩
  · rw [calculateMinimalRoute]
    simp only [hsel]
  · rcases hdisj with ⟨hmD, _⟩ | ⟨pre, c, post, hsplit, hic, hmd, _, hpre⟩
    · exfalso
      obtain ⟨p0, hp0⟩ := List.exists_mem_of_ne_nil _
        (createAllCombinations_ne_nil (mkPoint t0) (rest.map mkPoint) hrowne)
      obtain ⟨c0, hc0⟩ := hsucc p0 hp0
      have := hall p0 c0 hp0 hc0
      rw [hmD] at this
      exact absurd (lt_of_le_of_lt this (EReal.coe_lt_top c0)) (lt_irrefl _)
    · exact ⟨pre, c, post, hsplit, hic, hmd, hpre⟩

/-- For a zero-waypoint input the loop body of `_permute` never runs, so
no candidate path is generated and the initial accumulators survive:
`minimal_distance = math.inf` and `minimal_path = []`. -/
theorem calculateMinimalRoute_single (t0 : ℤ × ℤ × String) :
    calculateMinimalRoute [t0] = some (⊤, [], []) := by
  have h1 : createAllCombinations (mkPoint t0) (mkPoint t0)
      (List.map mkPoint []) = [] := by
    rw [createAllCombinations]
    simp [heapRun]
  rw [calculateMinimalRoute, h1, selectLoop]
  simp

end Route

/-- Evaluation of `__post_init__` on a nonempty list: it depends only on the first element,
and accepts exactly when it has the checked 3-tuple shape. -/
theorem postInit_list_cons (d0 : PyVal) (t : List PyVal) :
    InputValidator.postInit (.list (d0 :: t)) =
      (if InputValidator.goodFirst d0 then Except.ok () else .error .typeError) := by
  cases d0 with
  | tuple telems =>
    rcases telems with _ | ⟨a, _ | ⟨b, _ | ⟨c, _ | ⟨d, t4⟩⟩⟩⟩ <;> rfl
  | int n => rfl
  | boolean b => rfl
  | str s => rfl
  | list l => rfl
  | nonePy => rfl

/-- C8. Partial validation: `InputValidator` raises `TypeError` exactly
when one of the asserted checks on the first element evaluates to false
(the data is not a list, or it is a nonempty list whose first element is
not a 3-tuple of `int`, `int`, `str`); the elements after index 0 are
never inspected, so a well-formed first element is accepted regardless of
the shape of later elements. -/
theorem claim_C8_first_element_checks :
    (∀ v : PyVal,
      InputValidator.postInit v = .error .typeError ↔
        ((∀ l, v ≠ .list l) ∨
          ∃ d0 rest, v = .list (d0 :: rest) ∧
            InputValidator.goodFirst d0 = false)) ∧
    (∀ d0 t1 t2, InputValidator.postInit (.list (d0 :: t1)) =
      InputValidator.postInit (.list (d0 :: t2))) ∧
    (∀ d0 rest, InputValidator.goodFirst d0 = true →
      InputValidator.postInit (.list (d0 :: rest)) = .ok ()) := by
  refine ⟨?_, ?_, ?_⟩
  · intro v
    cases v with
    | list l =>
      cases l with
      | nil => simp [InputValidator.postInit]
      | cons d0 t =>
        rw [postInit_list_cons]
        cases hg : InputValidator.goodFirst d0 <;> simp [hg]
    | int n => simp [InputValidator.postInit]
    | boolean b => simp [InputValidator.postInit]
    | str s => simp [InputValidator.postInit]
    | tuple l => simp [InputValidator.postInit]
    | nonePy => simp [InputValidator.postInit]
  · intro d0 t1 t2
    rw [postInit_list_cons, postInit_list_cons]
  · intro d0 rest hg
    rw [postInit_list_cons, hg]
    rfl

/-- C8 witness: a list whose first element is well-formed is accepted
even though the later elements are garbage. -/
theorem claim_C8_first_element_checks_witness :
    InputValidator.goodFirst (.tuple [.int 0, .int 2, .str "P"]) = true ∧
    InputValidator.postInit (.list [.tuple [.int 0, .int 2, .str "P"],
      .nonePy, .str "junk"]) = .ok () :=
  ⟨by decide, claim_C8_first_element_checks.2.2
    (.tuple [.int 0, .int 2, .str "P"]) [.nonePy, .str "junk"] (by decide)⟩

/-- C9. Constructing `InputValidator` with an empty list raises
`IndexError` (the `data[0]` access), not the `TypeError` used for
validation failures. -/
theorem claim_C9_empty_list_index_error :
    InputValidator.postInit (.list []) = .error .indexError ∧
    (Except.error PyErr.indexError : Except PyErr Unit) ≠
      .error .typeError := by
  refine ⟨rfl, ?_⟩
  simp

namespace Route

/-- C5. Distance-matrix invariant: over points with pairwise-distinct
addresses, the matrix built by `_generate_matrix` is symmetric and has
zero diagonal. -/
theorem claim_C5_matrix_invariant (l : List Point)
    (hnd : (l.map Point.address).Nodup)
    (a b : Point) (ha : a ∈ l) (hb : b ∈ l) :
    mLookup (generateMatrix l l) a.address b.address =
      mLookup (generateMatrix l l) b.address a.address ∧
    mLookup (generateMatrix l l) a.address a.address = some 0 := by
  have hinj : ∀ p ∈ l, ∀ q ∈ l, p.address = q.address → p = q :=
    fun p hp q hq => List.inj_on_of_nodup_map hnd hp hq
  constructor
  · rw [mLookup_generateMatrix l hinj a b ha hb,
      mLookup_generateMatrix l hinj b a hb ha,
      calcDistanceBetweenPoints_symm]
  · rw [mLookup_generateMatrix l hinj a a ha ha,
      calcDistanceBetweenPoints_self]

/-- C5 witness at a concrete pair of points. -/
theorem claim_C5_matrix_invariant_witness :
    (mLookup (generateMatrix [⟨0, 2, "P"⟩, ⟨2, 5, "A"⟩] [⟨0, 2, "P"⟩, ⟨2, 5, "A"⟩])
        (Point.mk 0 2 "P").address (Point.mk 2 5 "A").address =
      mLookup (generateMatrix [⟨0, 2, "P"⟩, ⟨2, 5, "A"⟩] [⟨0, 2, "P"⟩, ⟨2, 5, "A"⟩])
        (Point.mk 2 5 "A").address (Point.mk 0 2 "P").address) ∧
    mLookup (generateMatrix [⟨0, 2, "P"⟩, ⟨2, 5, "A"⟩] [⟨0, 2, "P"⟩, ⟨2, 5, "A"⟩])
        (Point.mk 0 2 "P").address (Point.mk 0 2 "P").address = some 0 :=
  claim_C5_matrix_invariant [⟨0, 2, "P"⟩, ⟨2, 5, "A"⟩] (by decide)
    ⟨0, 2, "P"⟩ ⟨2, 5, "A"⟩ (by decide) (by decide)

/-- C4. Enumeration count: for `n ≥ 1` waypoints the optimizer generates
exactly `n!` candidate tours, but for `n = 0` it generates `0` of them,
not `0! = 1` — the `for i in range(0)` loop of `_permute` never reaches
the emitting base case.  This is the evaluation at the failing input of
the claim, whose statement demands `n!` also at `n = 0`. -/
theorem claim_C4_enumeration_count :
    (∀ (start finish : Point) (row : List Point), row ≠ [] →
      (createAllCombinations start finish row).length =
        Nat.factorial row.length) ∧
    (∀ start finish : Point, (createAllCombinations start finish []).length = 0) ∧
    Nat.factorial 0 = 1 := by
  refine ⟨?_, ?_, rfl⟩
  · intro start finish row hrow
    rw [createAllCombinations, heapRun_count, if_neg (by simpa using hrow)]
    simp
  · intro start finish
    rw [createAllCombinations]
    simp [heapRun]

/-- C4 witness at two concrete waypoints. -/
theorem claim_C4_enumeration_count_witness :
    (createAllCombinations ⟨0, 2, "P"⟩ ⟨0, 2, "P"⟩
        [⟨2, 5, "A"⟩, ⟨5, 2, "B"⟩]).length =
      Nat.factorial ([(⟨2, 5, "A"⟩ : Point), ⟨5, 2, "B"⟩].length) :=
  claim_C4_enumeration_count.1 ⟨0, 2, "P"⟩ ⟨0, 2, "P"⟩
    [⟨2, 5, "A"⟩, ⟨5, 2, "B"⟩] (by decide)

/-- C3. Degenerate case, evaluated at the failing input: with a depot and
zero waypoints the code yields `minimal_distance = math.inf` (modelled
`⊤`) and an empty tour, not the claimed total `0` with tour
`[depot, depot]`. -/
theorem claim_C3_zero_waypoints :
    calculateMinimalRoute [(0, 2, "P")] = some (⊤, [], []) ∧
    (⊤ : EReal) ≠ (0 : EReal) := by
  refine ⟨calculateMinimalRoute_single (0, 2, "P"), ?_⟩
  simp

/-- C1. Optimality: on a valid input (a depot followed by at least one
waypoint, all address strings distinct), the minimal distance selected by
`_calculate_minimal_route` is at most the Euclidean cost of
`[depot] + p + [depot]` for every permutation `p` of the waypoints. -/
theorem claim_C1_optimality (t0 : ℤ × ℤ × String)
    (rest : List (ℤ × ℤ × String)) (hne : rest ≠ [])
    (hnd : ((t0 :: rest).map (fun t => t.2.2)).Nodup) :
    ∃ (mD : EReal) (mP : List String) (pts : List (Option Point)),
      calculateMinimalRoute (t0 :: rest) = some (mD, mP, pts) ∧
      ∀ q : List Point, q.Perm (rest.map mkPoint) →
        mD ≤ ((tourCost (mkPoint t0) (q ++ [mkPoint t0]) : ℝ) : EReal) := by
  obtain ⟨mD, mP, hres, hall, _⟩ := calculateMinimalRoute_valid t0 rest hne hnd
  refine ⟨mD, mP, _, hres, ?_⟩
  intro q hq
  have hrowne : rest.map mkPoint ≠ [] := by simpa using hne
  exact hall _ _
    ((createAllCombinations_mem (mkPoint t0) (rest.map mkPoint) hrowne _).mpr
      ⟨q, hq, rfl⟩)
    (innerCost_routeMatrix (mkPoint t0) (rest.map mkPoint)
      (nodup_addresses t0 rest hnd) q (fun x hx => hq.subset hx))

/-- C1 witness at a concrete depot and waypoint. -/
theorem claim_C1_optimality_witness :
    ∃ (mD : EReal) (mP : List String) (pts : List (Option Point)),
      calculateMinimalRoute [(0, 2, "P"), (2, 5, "A")] = some (mD, mP, pts) ∧
      ∀ q : List Point, q.Perm ([(2, 5, "A")].map mkPoint) →
        mD ≤ ((tourCost (mkPoint (0, 2, "P")) (q ++ [mkPoint (0, 2, "P")]) : ℝ) :
          EReal) :=
  claim_C1_optimality (0, 2, "P") [(2, 5, "A")] (by decide) (by decide)

/-- C6. Tie-break policy: the loop replaces the running best only on a
strict improvement (`mininal_distance > route_dist`), and consequently the
path returned is the earliest generated candidate whose cost equals the
minimum: every earlier candidate is strictly costlier and every candidate
is at least as costly. -/
theorem claim_C6_tie_break (t0 : ℤ × ℤ × String)
    (rest : List (ℤ × ℤ × String)) (hne : rest ≠ [])
    (hnd : ((t0 :: rest).map (fun t => t.2.2)).Nodup) :
    (∀ (matrix : String → Option (String → Option ℝ)) (m : EReal)
        (mp path : List String) (st st2 : String) (d : ℝ),
      innerCost matrix 0 st path = some (d, st2) → ¬((d : EReal) < m) →
      selectLoop matrix m mp st [path] = some (m, mp, st2)) ∧
    ∃ (mD : EReal) (mP : List String) (pts : List (Option Point)),
      calculateMinimalRoute (t0 :: rest) = some (mD, mP, pts) ∧
      ∃ pre c post,
        createAllCombinations (mkPoint t0) (mkPoint t0) (rest.map mkPoint) =
          pre ++ mP :: post ∧
        innerCost (routeMatrix (mkPoint t0) (rest.map mkPoint)) 0
          (mkPoint t0).address mP = some (c, (mkPoint t0).address) ∧
        mD = (c : EReal) ∧
        (∀ path2 c2, path2 ∈ pre →
          innerCost (routeMatrix (mkPoint t0) (rest.map mkPoint)) 0
              (mkPoint t0).address path2 = some (c2, (mkPoint t0).address) →
            mD < (c2 : EReal)) ∧
        (∀ path2 c2, path2 ∈ createAllCombinations (mkPoint t0) (mkPoint t0)
            (rest.map mkPoint) →
          innerCost (routeMatrix (mkPoint t0) (rest.map mkPoint)) 0
              (mkPoint t0).address path2 = some (c2, (mkPoint t0).address) →
            mD ≤ (c2 : EReal)) := by
  constructor
  · intro matrix m mp path st st2 d hic hlt
    rw [selectLoop]
    simp only [hic]
    rw [if_neg hlt, selectLoop]
  · obtain ⟨mD, mP, hres, hall, pre, c, post, hsplit, hic, hmd, hpre⟩ :=
      calculateMinimalRoute_valid t0 rest hne hnd
    exact ⟨mD, mP, _, hres, pre, c, post, hsplit, hic, hmd, hpre, hall⟩

/-- C6 witness at a concrete input. -/
theorem claim_C6_tie_break_witness :
    (∀ (matrix : String → Option (String → Option ℝ)) (m : EReal)
        (mp path : List String) (st st2 : String) (d : ℝ),
      innerCost matrix 0 st path = some (d, st2) → ¬((d : EReal) < m) →
      selectLoop matrix m mp st [path] = some (m, mp, st2)) ∧
    ∃ (mD : EReal) (mP : List String) (pts : List (Option Point)),
      calculateMinimalRoute [(0, 2, "P"), (2, 5, "A")] = some (mD, mP, pts) ∧
      ∃ pre c post,
        createAllCombinations (mkPoint (0, 2, "P")) (mkPoint (0, 2, "P"))
            ([(2, 5, "A")].map mkPoint) = pre ++ mP :: post ∧
        innerCost (routeMatrix (mkPoint (0, 2, "P")) ([(2, 5, "A")].map mkPoint)) 0
          (mkPoint (0, 2, "P")).address mP = some (c, (mkPoint (0, 2, "P")).address) ∧
        mD = (c : EReal) ∧
        (∀ path2 c2, path2 ∈ pre →
          innerCost (routeMatrix (mkPoint (0, 2, "P")) ([(2, 5, "A")].map mkPoint)) 0
              (mkPoint (0, 2, "P")).address path2 =
                some (c2, (mkPoint (0, 2, "P")).address) →
            mD < (c2 : EReal)) ∧
        (∀ path2 c2, path2 ∈ createAllCombinations (mkPoint (0, 2, "P"))
            (mkPoint (0, 2, "P")) ([(2, 5, "A")].map mkPoint) →
          innerCost (routeMatrix (mkPoint (0, 2, "P")) ([(2, 5, "A")].map mkPoint)) 0
              (mkPoint (0, 2, "P")).address path2 =
                some (c2, (mkPoint (0, 2, "P")).address) →
            mD ≤ (c2 : EReal)) :=
  claim_C6_tie_break (0, 2, "P") [(2, 5, "A")] (by decide) (by decide)

/-- C7. Permutation invariance: two valid inputs with the same depot
whose waypoint lists are permutations of each other produce the same
minimal total distance. -/
theorem claim_C7_permutation_invariance (t0 : ℤ × ℤ × String)
    (rest1 rest2 : List (ℤ × ℤ × String)) (hperm : rest1.Perm rest2)
    (hnd : ((t0 :: rest1).map (fun t => t.2.2)).Nodup) :
    ∃ (mD1 mD2 : EReal) (mP1 mP2 : List String)
      (pts1 pts2 : List (Option Point)),
      calculateMinimalRoute (t0 :: rest1) = some (mD1, mP1, pts1) ∧
      calculateMinimalRoute (t0 :: rest2) = some (mD2, mP2, pts2) ∧
      mD1 = mD2 := by
  have hnd2 : ((t0 :: rest2).map (fun t => t.2.2)).Nodup := by
    have hp : ((t0 :: rest1).map (fun t => t.2.2)).Perm
        ((t0 :: rest2).map (fun t => t.2.2)) :=
      (List.Perm.cons t0 hperm).map _
    exact hp.nodup_iff.mp hnd
  rcases eq_or_ne rest1 [] with rfl | hne1
  · have h2 : rest2 = [] := hperm.symm.eq_nil
    subst h2
    exact ⟨⊤, ⊤, [], [], [], [], calculateMinimalRoute_single t0,
      calculateMinimalRoute_single t0, rfl⟩
  · have hne2 : rest2 ≠ [] := by
      intro h
      rw [h] at hperm
      exact hne1 hperm.eq_nil
    have hrn1 : rest1.map mkPoint ≠ [] := by simpa using hne1
    have hrn2 : rest2.map mkPoint ≠ [] := by simpa using hne2
    obtain ⟨mD1, mP1, hres1, hall1, pre1, c1, post1, hsplit1, hic1, hmd1, _⟩ :=
      calculateMinimalRoute_valid t0 rest1 hne1 hnd
    obtain ⟨mD2, mP2, hres2, hall2, pre2, c2, post2, hsplit2, hic2, hmd2, _⟩ :=
      calculateMinimalRoute_valid t0 rest2 hne2 hnd2
    have hmem1 : mP1 ∈ createAllCombinations (mkPoint t0) (mkPoint t0)
        (rest1.map mkPoint) := by
      rw [hsplit1]
      simp
    have hmem2 : mP2 ∈ createAllCombinations (mkPoint t0) (mkPoint t0)
        (rest2.map mkPoint) := by
      rw [hsplit2]
      simp
    obtain ⟨q1, hq1, rfl⟩ :=
      (createAllCombinations_mem _ _ hrn1 mP1).mp hmem1
    obtain ⟨q2, hq2, rfl⟩ :=
      (createAllCombinations_mem _ _ hrn2 mP2).mp hmem2
    have hval1 := innerCost_routeMatrix (mkPoint t0) (rest1.map mkPoint)
      (nodup_addresses t0 rest1 hnd) q1 (fun x hx => hq1.subset hx)
    have hval2 := innerCost_routeMatrix (mkPoint t0) (rest2.map mkPoint)
      (nodup_addresses t0 rest2 hnd2) q2 (fun x hx => hq2.subset hx)
    have hc1 : tourCost (mkPoint t0) (q1 ++ [mkPoint t0]) = c1 := by
      rw [hval1] at hic1
      simpa using hic1
    have hc2 : tourCost (mkPoint t0) (q2 ++ [mkPoint t0]) = c2 := by
      rw [hval2] at hic2
      simpa using hic2
    have hperm_pts : (rest1.map mkPoint).Perm (rest2.map mkPoint) :=
      hperm.map mkPoint
    have hb1 : mD1 ≤ ((tourCost (mkPoint t0) (q2 ++ [mkPoint t0]) : ℝ) : EReal) :=
      hall1 _ _
        ((createAllCombinations_mem _ _ hrn1 _).mpr
          ⟨q2, hq2.trans hperm_pts.symm, rfl⟩)
        (innerCost_routeMatrix (mkPoint t0) (rest1.map mkPoint)
          (nodup_addresses t0 rest1 hnd) q2
          (fun x hx => (hq2.trans hperm_pts.symm).subset hx))
    have hb2 : mD2 ≤ ((tourCost (mkPoint t0) (q1 ++ [mkPoint t0]) : ℝ) : EReal) :=
      hall2 _ _
        ((createAllCombinations_mem _ _ hrn2 _).mpr
          ⟨q1, hq1.trans hperm_pts, rfl⟩)
        (innerCost_routeMatrix (mkPoint t0) (rest2.map mkPoint)
          (nodup_addresses t0 rest2 hnd2) q1
          (fun x hx => (hq1.trans hperm_pts).subset hx))
    refine ⟨mD1, mD2, _, _, _, _, hres1, hres2, le_antisymm ?_ ?_⟩
    · calc mD1 ≤ ((tourCost (mkPoint t0) (q2 ++ [mkPoint t0]) : ℝ) : EReal) := hb1
        _ = ((c2 : ℝ) : EReal) := by rw [hc2]
        _ = mD2 := hmd2.symm
    · calc mD2 ≤ ((tourCost (mkPoint t0) (q1 ++ [mkPoint t0]) : ℝ) : EReal) := hb2
        _ = ((c1 : ℝ) : EReal) := by rw [hc1]
        _ = mD1 := hmd1.symm

/-! ### The display/selection refinement (C10) -/

/-- Explicit form of the running cumulative distances along a list of
waypoints, starting from accumulator `d`. -/
noncomputable def cums (previous : Point) (d : ℝ) : List Point → List ℝ
  | [] => []
  | p :: rest =>
    (d + calcDistanceBetweenPoints previous p) ::
      cums p (d + calcDistanceBetweenPoints previous p) rest

theorem displayLegs_eq_cums :
    ∀ (q : List Point) (prev : Point) (d : ℝ),
      displayLegs prev d (q.map some ++ [none]) = cums prev d q := by
  intro q
  induction q with
  | nil =>
    intro prev d
    rw [List.map_nil, List.nil_append, displayLegs, displayLegs, cums]
  | cons x q ih =>
    intro prev d
    rw [List.map_cons, List.cons_append, displayLegs, cums, ih]

theorem innerScan_app (l : List Point)
    (hinj : ∀ p ∈ l, ∀ q ∈ l, p.address = q.address → p = q) :
    ∀ (q : List Point) (prev last : Point) (acc : ℝ),
      prev ∈ l → last ∈ l → (∀ x ∈ q, x ∈ l) →
      innerScan (generateMatrix l l) acc prev.address
          (q.map Point.address ++ [last.address]) =
        some (cums prev acc q ++ [acc + tourCost prev (q ++ [last])]) := by
  intro q
  induction q with
  | nil =>
    intro prev last acc hp hl _
    rw [List.map_nil, List.nil_append, innerScan]
    simp only [mLookup_generateMatrix l hinj prev last hp hl]
    rw [innerScan]
    simp [cums, tourCost]
  | cons x q ih =>
    intro prev last acc hp hl hq
    rw [List.map_cons, List.cons_append, innerScan]
    simp only [mLookup_generateMatrix l hinj prev x hp (hq x (by simp))]
    rw [ih x last (acc + calcDistanceBetweenPoints prev x) (hq x (by simp)) hl
      (fun y hy => hq y (by simp [hy]))]
    simp [cums, tourCost, add_assoc]

/-- The running sums the selection accumulates along a full decorated
path: the self-hop `matrix[depot][depot]` contributes an exact `0` first
entry, then the waypoint cumulatives, then the full tour cost. -/
theorem innerScan_path (l : List Point)
    (hinj : ∀ p ∈ l, ∀ q ∈ l, p.address = q.address → p = q)
    (depot : Point) (hdep : depot ∈ l) (q : List Point)
    (hq : ∀ x ∈ q, x ∈ l) :
    innerScan (generateMatrix l l) 0 depot.address
        (depot.address :: (q.map Point.address ++ [depot.address])) =
      some (0 :: (cums depot 0 q ++ [tourCost depot (q ++ [depot])])) := by
  rw [innerScan]
  simp only [mLookup_generateMatrix l hinj depot depot hdep hdep]
  rw [calcDistanceBetweenPoints_self, add_zero,
    innerScan_app l hinj q depot depot 0 hdep hdep hq, zero_add]
  rfl

theorem getPointByAddress_not_mem (row : List Point) (a : String)
    (h : a ∉ row.map Point.address) : getPointByAddress row a = none := by
  rw [getPointByAddress, List.find?_eq_none]
  intro x hx
  simp only [beq_iff_eq]
  intro he
  exact h (he ▸ List.mem_map_of_mem Point.address hx)

theorem getPointByAddress_mem (row : List Point)
    (hnd : (row.map Point.address).Nodup) (x : Point) (hx : x ∈ row) :
    getPointByAddress row x.address = some x :=
  find?_address_of_inj row
    (fun _ hp _ hq => List.inj_on_of_nodup_map hnd hp hq) x hx

/-- C10. Refinement between `display` and the selection loop: for a valid
input, the cumulative distances `display` recomputes by summing
`_calc_distance_between_points` over consecutive points equal the
corresponding running sums of matrix lookups accumulated during selection
(the scan starts at the exact value `0`, the display cumulatives are its
middle entries, in order), and the final total stored as
`minimal_distance` equals the selected tour's full matrix-based cost. -/
theorem claim_C10_display_refinement (t0 : ℤ × ℤ × String)
    (rest : List (ℤ × ℤ × String)) (hne : rest ≠ [])
    (hnd : ((t0 :: rest).map (fun t => t.2.2)).Nodup) :
    ∃ (mD : EReal) (mP : List String) (ptsD : List (Option Point))
      (total : ℝ) (scan : List ℝ),
      calculateMinimalRoute (t0 :: rest) = some (mD, mP, ptsD) ∧
      innerCost (routeMatrix (mkPoint t0) (rest.map mkPoint)) 0
        (mkPoint t0).address mP = some (total, (mkPoint t0).address) ∧
      innerScan (routeMatrix (mkPoint t0) (rest.map mkPoint)) 0
        (mkPoint t0).address mP = some scan ∧
      mD = (total : EReal) ∧
      scan.head? = some 0 ∧
      scan.getLast? = some total ∧
      displayLegs (mkPoint t0) 0 ptsD = (scan.drop 1).dropLast := by
  obtain ⟨mD, mP, hres, _, pre, c, post, hsplit, hic, hmd, _⟩ :=
    calculateMinimalRoute_valid t0 rest hne hnd
  have hrn : rest.map mkPoint ≠ [] := by simpa using hne
  have hmem : mP ∈ createAllCombinations (mkPoint t0) (mkPoint t0)
      (rest.map mkPoint) := by
    rw [hsplit]
    simp
  obtain ⟨q, hq, rfl⟩ := (createAllCombinations_mem _ _ hrn mP).mp hmem
  have hval := innerCost_routeMatrix (mkPoint t0) (rest.map mkPoint)
    (nodup_addresses t0 rest hnd) q (fun x hx => hq.subset hx)
  have hc : tourCost (mkPoint t0) (q ++ [mkPoint t0]) = c := by
    rw [hval] at hic
    simpa using hic
  have hnda := nodup_addresses t0 rest hnd
  rw [List.map_cons] at hnda
  have hdep_notmem : (mkPoint t0).address ∉ (rest.map mkPoint).map Point.address :=
    (List.nodup_cons.mp hnda).1
  have hrow_nodup : ((rest.map mkPoint).map Point.address).Nodup :=
    (List.nodup_cons.mp hnda).2
  have hscan : innerScan (routeMatrix (mkPoint t0) (rest.map mkPoint)) 0
      (mkPoint t0).address
      ((mkPoint t0).address :: (q.map Point.address ++ [(mkPoint t0).address])) =
        some (0 :: (cums (mkPoint t0) 0 q ++
          [tourCost (mkPoint t0) (q ++ [mkPoint t0])])) := by
    rw [routeMatrix]
    exact innerScan_path (routePoints (mkPoint t0) (rest.map mkPoint))
      (routePoints_inj (mkPoint t0) (rest.map mkPoint)
        (by rw [List.map_cons]; exact hnda))
      (mkPoint t0) (by simp [routePoints]) q
      (fun x hx => by simp [routePoints, hq.subset hx])
  have hptsD : ((mkPoint t0).address ::
      (q.map Point.address ++ [(mkPoint t0).address])).map
        (getPointByAddress (rest.map mkPoint)) =
      none :: (q.map some ++ [none]) := by
    rw [List.map_cons, List.map_append,
      getPointByAddress_not_mem _ _ hdep_notmem, List.map_map]
    have hmapq : q.map (getPointByAddress (rest.map mkPoint) ∘ Point.address) =
        q.map some :=
      List.map_congr_left (fun x hx =>
        getPointByAddress_mem _ hrow_nodup x (hq.subset hx))
    rw [hmapq]
    simp [getPointByAddress_not_mem _ _ hdep_notmem]
  refine ⟨mD, _, _, tourCost (mkPoint t0) (q ++ [mkPoint t0]),
    0 :: (cums (mkPoint t0) 0 q ++ [tourCost (mkPoint t0) (q ++ [mkPoint t0])]),
    by rw [hres, hptsD], hval, hscan, by rw [hmd, hc], rfl, ?_, ?_⟩
  · rw [show (0 : ℝ) :: (cums (mkPoint t0) 0 q ++
        [tourCost (mkPoint t0) (q ++ [mkPoint t0])]) =
      ((0 : ℝ) :: cums (mkPoint t0) 0 q) ++
        [tourCost (mkPoint t0) (q ++ [mkPoint t0])] from by simp,
      List.getLast?_concat]
  · rw [displayLegs, displayLegs_eq_cums]
    rw [List.drop_one, List.tail_cons, List.dropLast_concat]

/-- C10 witness at a concrete input. -/
theorem claim_C10_display_refinement_witness :
    ∃ (mD : EReal) (mP : List String) (ptsD : List (Option Point))
      (total : ℝ) (scan : List ℝ),
      calculateMinimalRoute [(0, 2, "P"), (2, 5, "A")] = some (mD, mP, ptsD) ∧
      innerCost (routeMatrix (mkPoint (0, 2, "P")) ([(2, 5, "A")].map mkPoint)) 0
        (mkPoint (0, 2, "P")).address mP = some (total, (mkPoint (0, 2, "P")).address) ∧
      innerScan (routeMatrix (mkPoint (0, 2, "P")) ([(2, 5, "A")].map mkPoint)) 0
        (mkPoint (0, 2, "P")).address mP = some scan ∧
      mD = (total : EReal) ∧
      scan.head? = some 0 ∧
      scan.getLast? = some total ∧
      displayLegs (mkPoint (0, 2, "P")) 0 ptsD = (scan.drop 1).dropLast :=
  claim_C10_display_refinement (0, 2, "P") [(2, 5, "A")] (by decide) (by decide)

/-- C7 witness at a concrete pair of reordered inputs. -/
theorem claim_C7_permutation_invariance_witness :
    ∃ (mD1 mD2 : EReal) (mP1 mP2 : List String)
      (pts1 pts2 : List (Option Point)),
      calculateMinimalRoute [(0, 2, "P"), (2, 5, "A"), (5, 2, "B")] =
        some (mD1, mP1, pts1) ∧
      calculateMinimalRoute [(0, 2, "P"), (5, 2, "B"), (2, 5, "A")] =
        some (mD2, mP2, pts2) ∧
      mD1 = mD2 :=
  claim_C7_permutation_invariance (0, 2, "P") [(2, 5, "A"), (5, 2, "B")]
    [(5, 2, "B"), (2, 5, "A")] (by decide) (by decide)

end Route
